import Mathlib

/-!
# Verification of the remus address-bus core

A shallow embedding of the address-resolution core of the `remus` emulator
toolkit, together with theorems settling the specification claims.

The sources contain three generations of the bus code:

* `src/bus.rs` — oldest: `BTreeMap<usize, Vec<Rc<RefCell<dyn Device>>>>`,
  resolution matches with `index - base < dev.len()`;
* `src/bus/mod.rs` — middle: `BTreeMap<usize, Vec<Dynamic>>`, resolution
  matches with `dev.contains(index - base)`; devices carry `contains`, `len`,
  `read`, `write`, `reset`;
* `src/bus/map.rs` — newest: an interval index `Map` from base to a
  `BTreeSet<Mapping>` ordered by `(base, len)`, resolution matches with range
  containment.

Both the middle `Bus` and the newest `Map` are embedded below.

The trait `Device` (dynamic dispatch over heterogeneous devices) is embedded
as a record of operations `DevOps D` over an arbitrary state type `D`:
`contains`, `len`, `read` are the borrowing methods and `write`, `reset`
return the updated device state.  A `Bus` is the `BTreeMap` modelled as an
association list with strictly ascending keys, each key holding the vector of
devices mapped at that base.
-/

/-- Operations of the `Device` trait (`src/src/dev/mod.rs`, `src/src/blk.rs`,
`src/src/arc.rs`): `contains`, `len` from `Device`, `read`/`write` from
`Address<u8>`, `reset` from `Block`.  Mutating methods return the new device
state. -/
structure DevOps (D : Type) where
  contains : D → Nat → Bool
  len : D → Nat
  read : D → Nat → Nat
  write : D → Nat → Nat → D
  reset : D → D

/-- The `Bus` of `src/src/bus/mod.rs`: `maps: BTreeMap<usize, Vec<Dynamic>>`,
modelled as an association list with strictly ascending keys. -/
abbrev BusM (D : Type) : Type := List (Nat × List D)

/-- All `(base, device)` pairs of the bus, in ascending key order, each key's
vector in stored order (the `flat_map` iteration the Rust code uses). -/
def busMappings {D : Type} (maps : BusM D) : List (Nat × D) :=
  maps.flatMap (fun p => p.2.map (fun d => (p.1, d)))

/-- Well-formedness of the `BTreeMap` model: keys strictly ascending, and each
vector sorted by device length ascending (the invariant `Bus::map` maintains
via `sort_by_key(Device::len)`). -/
def BusWF {D : Type} (ops : DevOps D) (maps : BusM D) : Prop :=
  List.Pairwise (fun p q => p.1 < q.1) maps ∧
    ∀ p ∈ maps, List.Pairwise (fun a b => ops.len a ≤ ops.len b) p.2

instance {D : Type} (ops : DevOps D) (maps : BusM D) : Decidable (BusWF ops maps) := by
  unfold BusWF
  infer_instance

/-- Stable insertion of a device into a vector sorted by length: the new
device goes after every element of smaller or equal length.  Used to model
`devs.sort_by_key(Device::len)` after a `push` (Rust's sort is stable). -/
def ordInsert {D : Type} (ops : DevOps D) (d : D) : List D → List D
  | [] => [d]
  | e :: es => if ops.len e ≤ ops.len d then e :: ordInsert ops d es else d :: e :: es

/-- Stable sort of a device vector by length ascending; models
`sort_by_key(Device::len)`. -/
def sortByLen {D : Type} (ops : DevOps D) (l : List D) : List D :=
  l.foldl (fun acc d => ordInsert ops d acc) []

/-- `Bus::map` (`src/src/bus/mod.rs:44`): `entry(base).or_default().push(dev)`
followed by a stable sort of that vector by device length. -/
def busMap {D : Type} (ops : DevOps D) (base : Nat) (d : D) : BusM D → BusM D
  | [] => [(base, [d])]
  | (k, ds) :: rest =>
    if base < k then (base, [d]) :: (k, ds) :: rest
    else if base = k then (k, sortByLen ops (ds ++ [d])) :: rest
    else (k, ds) :: busMap ops base d rest

/-- `Bus::unmap` (`src/src/bus/mod.rs:54`): find the key, find the device by
equality (instance identity of `Dynamic`), remove it from the vector.  The key
stays in the table even when its vector becomes empty. -/
def busUnmap {D : Type} [DecidableEq D] (base : Nat) (dev : D) :
    BusM D → Option (D × BusM D)
  | [] => none
  | (k, ds) :: rest =>
    if base = k then
      match ds.findIdx? (fun x => x = dev) with
      | none => none
      | some i => some (dev, (k, ds.eraseIdx i) :: rest)
    else
      match busUnmap base dev rest with
      | none => none
      | some (d, rest') => some (d, (k, ds) :: rest')

/-- The candidate list `Bus::at` walks: keys `<= index` (that is
`range(..=index)`), reversed (descending), each key's vector flattened in
stored order. -/
def busCands {D : Type} (maps : BusM D) (idx : Nat) : List (Nat × D) :=
  busMappings ((maps.filter (fun p => p.1 ≤ idx)).reverse)

/-- `Bus::at` (`src/src/bus/mod.rs:61`): first candidate whose device
`contains(index - base)`. -/
def busAt {D : Type} (ops : DevOps D) (maps : BusM D) (idx : Nat) : Option (Nat × D) :=
  (busCands maps idx).find? (fun p => ops.contains p.2 (idx - p.1))

/-- `Address::read` for `Bus` (`src/src/bus/mod.rs:80`): resolve, then read the
device at `index - base`.  The `unwrap` panic on no mapping is modelled as
`none`. -/
def busRead {D : Type} (ops : DevOps D) (maps : BusM D) (idx : Nat) : Option Nat :=
  (busAt ops maps idx).map (fun p => ops.read p.2 (idx - p.1))

/-- `Device::contains` for `Bus` (`src/src/bus/mod.rs:100`): resolve, then ask
the resolved device. -/
def busContains {D : Type} (ops : DevOps D) (maps : BusM D) (idx : Nat) : Bool :=
  match busAt ops maps idx with
  | some (base, dev) => ops.contains dev (idx - base)
  | none => false

/-- `Device::len` for `Bus` (`src/src/bus/mod.rs:107`): lowest key (or 0),
maximum of `base + dev.len()` over all mapped devices (or 0), saturating
difference. -/
def busLen {D : Type} (ops : DevOps D) (maps : BusM D) : Nat :=
  let start := ((maps.map (fun p => p.1)).head?).getD 0
  let stop := (((busMappings maps).map (fun p => p.1 + ops.len p.2)).max?).getD 0
  stop - start

/-- `Block::reset` for `Bus` (`src/src/bus/mod.rs:92`): reset every mapped
device; the table shape is unchanged. -/
def busReset {D : Type} (ops : DevOps D) (maps : BusM D) : BusM D :=
  maps.map (fun p => (p.1, p.2.map ops.reset))

/-- Vector part of `Bus::at_mut`: position of the first device in the vector
that contains `idx - base`. -/
def vecFindPos {D : Type} (ops : DevOps D) (base idx : Nat) : List D → Option Nat
  | [] => none
  | d :: ds =>
    if ops.contains d (idx - base) then some 0
    else (vecFindPos ops base idx ds).map (· + 1)

/-- `Bus::at_mut` (`src/src/bus/mod.rs:70`), positionally: the key and vector
position of the first matching device, walking the same candidates as
`Bus::at`. -/
def busAtPos {D : Type} (ops : DevOps D) (maps : BusM D) (idx : Nat) : Option (Nat × Nat) :=
  ((maps.filter (fun p => p.1 ≤ idx)).reverse).findSome?
    (fun p => (vecFindPos ops p.1 idx p.2).map (fun i => (p.1, i)))

/-- The vector stored at key `k` (empty if the key is absent). -/
def busVec {D : Type} (maps : BusM D) (k : Nat) : List D :=
  (((maps.filter (fun p => p.1 = k)).head?).map (fun p => p.2)).getD []

/-- Replace the device at position `pos` of the vector at key `k`. -/
def busSet {D : Type} (maps : BusM D) (k pos : Nat) (d : D) : BusM D :=
  maps.map (fun p => if p.1 = k then (p.1, p.2.set pos d) else p)

/-- `Address::write` for `Bus` (`src/src/bus/mod.rs:85`): resolve mutably, then
write through the resolved device at `index - base`. -/
def busWrite {D : Type} (ops : DevOps D) (maps : BusM D) (idx v : Nat) : Option (BusM D) :=
  match busAtPos ops maps idx with
  | none => none
  | some (k, pos) =>
    match (busVec maps k)[pos]? with
    | none => none
    | some d => some (busSet maps k pos (ops.write d (idx - k) v))

/-- `Ram<N>` (`src/src/mem/ram.rs`) as a list of byte values: `contains` is
`index < len`, `read`/`write` act on the backing array, `reset`
(`mem::take`) zero-fills. -/
def ramOps : DevOps (List Nat) where
  contains d i := i < d.length
  len d := d.length
  read d i := d.getD i 0
  write d i v := d.set i v
  reset d := List.replicate d.length 0

example : busAt ramOps [(0, [[7, 7]]), (1, [[9]])] 1 = some (1, [9]) := by decide
example : busAt ramOps [(0, [[7, 7]]), (1, [[9]])] 3 = none := by decide
example : busRead ramOps [(0, [[7, 7]]), (1, [[9]])] 1 = some 9 := by decide
example : busLen ramOps [(5, [[7]]), (16, [[9]])] = 12 := by decide
example : busMap ramOps 5 [7] [] = [(5, [[7]])] := by decide
example :
    busUnmap 5 [7] [(5, [[7]]), (16, [[9]])] = some ([7], [(5, []), (16, [[9]])]) := by
  decide

/-!
## The interval index `Map` of `src/src/bus/map.rs`

`Map<Idx, V>` is a `BTreeMap<Idx, BTreeSet<Mapping<Idx, V>>>`.  `Mapping`
holds an inclusive range and an entry; its `Ord` compares the base and then
the range length (`end - start`), ignoring the entry.  A `BTreeSet` is
modelled as a list sorted strictly ascending by that order; `insert` of an
element that compares equal to a present one leaves the set unchanged.
-/

/-- `Mapping` (`src/src/bus/map.rs:80`): inclusive range `[start, stop]` plus
an entry. -/
structure Mapping (E : Type) where
  start : Nat
  stop : Nat
  entry : E
  deriving DecidableEq, Repr

/-- `Mapping::base`: the range's start. -/
def Mapping.base {E : Type} (m : Mapping E) : Nat := m.start

/-- `Mapping::len` (`src/src/bus/map.rs:102`): `end - start` (note: not the
number of indices covered). -/
def Mapping.rlen {E : Type} (m : Mapping E) : Nat := m.stop - m.start

/-- `Mapping::contains`: inclusive-range containment. -/
def Mapping.mem {E : Type} (m : Mapping E) (i : Nat) : Bool :=
  decide (m.start ≤ i) && decide (i ≤ m.stop)

/-- `Ord for Mapping` (`src/src/bus/map.rs:111`): base first, then length;
the entry does not participate. -/
def mappingCmp {E : Type} (a b : Mapping E) : Ordering :=
  match compare a.base b.base with
  | Ordering.lt => Ordering.lt
  | Ordering.gt => Ordering.gt
  | Ordering.eq => compare a.rlen b.rlen

/-- The interval index `Map` (`src/src/bus/map.rs:15`): association list from
base to the `BTreeSet` of mappings starting there. -/
abbrev MapI (E : Type) : Type := List (Nat × List (Mapping E))

/-- `BTreeSet::insert` on the sorted-list model: navigate by `Ord`; if an
element comparing equal is already present the set is unchanged. -/
def setInsert {E : Type} (m : Mapping E) : List (Mapping E) → List (Mapping E)
  | [] => [m]
  | x :: xs =>
    match mappingCmp m x with
    | Ordering.lt => m :: x :: xs
    | Ordering.eq => x :: xs
    | Ordering.gt => x :: setInsert m xs

/-- `BTreeSet::take` on the sorted-list model: remove and return the element
comparing equal to the probe, if present. -/
def setTake {E : Type} (m : Mapping E) :
    List (Mapping E) → Option (Mapping E × List (Mapping E))
  | [] => none
  | x :: xs =>
    match mappingCmp m x with
    | Ordering.eq => some (x, xs)
    | Ordering.lt => none
    | Ordering.gt => (setTake m xs).map (fun p => (p.1, x :: p.2))

/-- `Map::map` (`src/src/bus/map.rs:34`): build the `Mapping` and insert it
into the set stored under its base (`entry(..).or_default().insert(new)`). -/
def mapMap {E : Type} (start stop : Nat) (e : E) : MapI E → MapI E
  | [] => [(start, [Mapping.mk start stop e])]
  | (k, ms) :: rest =>
    if start < k then (start, [Mapping.mk start stop e]) :: (k, ms) :: rest
    else if start = k then (k, setInsert (Mapping.mk start stop e) ms) :: rest
    else (k, ms) :: mapMap start stop e rest

/-- All mappings of the index in iteration order (ascending base, each set
ascending by length): `iter().flat_map(|(_, maps)| maps.iter())`. -/
def mapFlatten {E : Type} (m : MapI E) : List (Mapping E) :=
  m.flatMap (fun p => p.2)

/-- `Map::find` (`src/src/bus/map.rs:56`): first mapping anywhere in the index
whose entry equals the probe. -/
def mapFind {E : Type} [DecidableEq E] (e : E) (m : MapI E) : Option (Mapping E) :=
  (mapFlatten m).find? (fun mp => mp.entry = e)

/-- Replace the set stored under key `k`. -/
def mapSetAt {E : Type} (m : MapI E) (k : Nat) (ms : List (Mapping E)) : MapI E :=
  m.map (fun p => if p.1 = k then (p.1, ms) else p)

/-- Look up the set stored under key `k`. -/
def mapGetSet {E : Type} (m : MapI E) (k : Nat) : Option (List (Mapping E)) :=
  ((m.filter (fun p => p.1 = k)).head?).map (fun p => p.2)

/-- `Map::unmap` (`src/src/bus/map.rs:39`): locate the entry anywhere in the
index, then `take` the found mapping out of the set under its base and return
the entry.  The key survives even if its set becomes empty. -/
def mapUnmap {E : Type} [DecidableEq E] (e : E) (m : MapI E) :
    Option (E × MapI E) :=
  match mapFind e m with
  | none => none
  | some found =>
    match mapGetSet m found.base with
    | none => none
    | some ms =>
      match setTake found ms with
      | none => none
      | some (taken, ms') => some (taken.entry, mapSetAt m found.base ms')

/-- `Map::get` (`src/src/bus/map.rs:48`): walk the bases `<= idx` descending,
each base's set in ascending (narrowest-first) order, and return the first
mapping whose inclusive range contains `idx`. -/
def mapGet {E : Type} (m : MapI E) (idx : Nat) : Option (Mapping E) :=
  (mapFlatten ((m.filter (fun p => p.1 ≤ idx)).reverse)).find? (fun mp => mp.mem idx)

/-- Well-formedness of the `Map` model: keys strictly ascending; every mapping
stored under key `k` has base `k` (the documented invariant); each set is
strictly sorted by the `(base, len)` order, which within one key means
strictly ascending lengths. -/
def MapWF {E : Type} (m : MapI E) : Prop :=
  List.Pairwise (fun p q => p.1 < q.1) m ∧
    (∀ p ∈ m, (∀ mp ∈ p.2, mp.base = p.1) ∧
      List.Pairwise (fun a b => a.rlen < b.rlen) p.2)

instance {E : Type} (m : MapI E) : Decidable (MapWF m) := by
  unfold MapWF
  infer_instance

example :
    mapMap 0 1 (0 : Nat) (mapMap 0 1 1 []) = [(0, [Mapping.mk 0 1 1])] := by decide
example :
    mapMap 0 5 (0 : Nat) (mapMap 0 1 1 []) =
      [(0, [Mapping.mk 0 1 1, Mapping.mk 0 5 0])] := by decide
example : mapGet [(0, [Mapping.mk 0 1 (1 : Nat), Mapping.mk 0 5 0])] 1 =
    some (Mapping.mk 0 1 1) := by decide
example : mapGet [(0, [Mapping.mk 0 1 (1 : Nat), Mapping.mk 0 5 0])] 3 =
    some (Mapping.mk 0 5 0) := by decide
example : mapGet [(0, [Mapping.mk 0 1 (1 : Nat), Mapping.mk 0 5 0])] 6 = none := by decide
example :
    mapUnmap (1 : Nat) [(0, [Mapping.mk 0 1 1, Mapping.mk 0 5 0])] =
      some (1, [(0, [Mapping.mk 0 5 0])]) := by decide

/-!
## Adapters: Mask, View, Bank

`Mask` (`src/src/bus/adapt/mask.rs`) is an ordered stack of layers, each a
`Mux` (a complete address space with a fallible surface).  The provided
sources store the layers bare; the spec (§3, §4.8) describes each layer as
`{bus: device, skip: bool}` with `skip` soft-disabling a layer, a field
absent from the sources here, so the `skip` flag is modelled from the spec.
-/

/-- The fallible surface of the `Mux` trait (`src/src/bus/mux.rs`,
`TryAddress`): `try_read` yields a value on success, `try_write` yields the
updated layer state on success; `none` is the typed failure. -/
structure MuxOps (L : Type) where
  tryRead : L → Nat → Option Nat
  tryWrite : L → Nat → Nat → Option L

/-- A `Mask` layer.  Modelled from the spec: the `skip` flag
(`{bus: device, skip: bool}`, §4.8 "skipping those flagged `skip`") is not
present in the provided sources, whose `Mask` stores bare layers. -/
structure Layer (L : Type) where
  dev : L
  skip : Bool
  deriving DecidableEq, Repr

/-- The typed bus error (`bus::Error::Unmapped(index)`), carrying the probed
index. -/
inductive BusErr where
  | unmapped : Nat → BusErr
  deriving DecidableEq, Repr

/-- `Mask::try_read` (`src/src/bus/adapt/mask.rs:101`): walk the layers in
order (skipping those flagged `skip`, per the spec), first success wins; no
success is `Error::Unmapped(index)`. -/
def maskTryRead {L : Type} (ops : MuxOps L) : List (Layer L) → Nat → Except BusErr Nat
  | [], i => Except.error (BusErr.unmapped i)
  | l :: rest, i =>
    if l.skip then maskTryRead ops rest i
    else
      match ops.tryRead l.dev i with
      | some v => Except.ok v
      | none => maskTryRead ops rest i

/-- `Mask::try_write` (`src/src/bus/adapt/mask.rs:108`): walk the layers in
order (skipping those flagged `skip`), the first layer whose fallible write
succeeds is updated in place; no success is `Error::Unmapped(index)`. -/
def maskTryWrite {L : Type} (ops : MuxOps L) :
    List (Layer L) → Nat → Nat → Except BusErr (List (Layer L))
  | [], i, _ => Except.error (BusErr.unmapped i)
  | l :: rest, i, v =>
    if l.skip then (maskTryWrite ops rest i v).map (fun ls => l :: ls)
    else
      match ops.tryWrite l.dev i v with
      | some d => Except.ok ({ l with dev := d } :: rest)
      | none => (maskTryWrite ops rest i v).map (fun ls => l :: ls)

/-- `Address::read` for `Mask` (`try_read(index).unwrap()`): the infallible
surface, panicking (`none`) when unmapped. -/
def maskRead {L : Type} (ops : MuxOps L) (ls : List (Layer L)) (i : Nat) : Option Nat :=
  (maskTryRead ops ls i).toOption

/-- `Block::reset` for `Mask` (`src/src/bus/adapt/mask.rs:116`): the impl is
empty, so the defaulted `Block::reset` (`src/src/blk.rs`) runs, which does
nothing. -/
def maskReset {L : Type} (ls : List (Layer L)) : List (Layer L) := ls

/-- `View` (`src/src/bus/adapt/view.rs`) over an inclusive range: exposes
`[start, stop]` of the inner device re-based to zero. -/
structure ViewI (D : Type) where
  dev : D
  start : Nat
  stop : Nat

/-- `View::translate` (`src/src/bus/adapt/view.rs:37`): add the range's start
bound to the local index. -/
def viewTranslate {D : Type} (v : ViewI D) (i : Nat) : Nat := i + v.start

/-- `Address::read` for `View`: translate, then read the inner device at the
translated index if it is still inside the range; else out-of-bounds panic
(`none`). -/
def viewRead {D : Type} (ops : DevOps D) (v : ViewI D) (i : Nat) : Option Nat :=
  let j := viewTranslate v i
  if v.start ≤ j ∧ j ≤ v.stop then some (ops.read v.dev j) else none

/-- `Address::write` for `View`: translate, then write the inner device at the
translated index if it is still inside the range; else out-of-bounds panic
(`none`). -/
def viewWrite {D : Type} (ops : DevOps D) (v : ViewI D) (i val : Nat) : Option (ViewI D) :=
  let j := viewTranslate v i
  if v.start ≤ j ∧ j ≤ v.stop then some { v with dev := ops.write v.dev j val } else none

/-- `Device::contains` for `View`: the translated index lies in the range. -/
def viewContains {D : Type} (v : ViewI D) (i : Nat) : Bool :=
  let j := viewTranslate v i
  decide (v.start ≤ j) && decide (j ≤ v.stop)

/-- `Bank` (`src/src/bus/adapt/bank.rs`): a selector and an ordered list of
candidate devices. -/
structure BankI (D : Type) where
  sel : Nat
  banks : List D

/-- `Bank::set`: select a candidate (the only transition). -/
def bankSet {D : Type} (s : Nat) (b : BankI D) : BankI D := { b with sel := s }

/-- `Address::read` for `Bank`: read `banks[sel]`; an out-of-range selector
panics (`none`). -/
def bankRead {D : Type} (ops : DevOps D) (b : BankI D) (i : Nat) : Option Nat :=
  (b.banks[b.sel]?).map (fun d => ops.read d i)

/-- `Address::write` for `Bank`: write through `banks[sel]`. -/
def bankWrite {D : Type} (ops : DevOps D) (b : BankI D) (i v : Nat) : Option (BankI D) :=
  (b.banks[b.sel]?).map (fun d => { b with banks := b.banks.set b.sel (ops.write d i v) })

/-- `Block::reset` for `Bank` (`src/src/bus/adapt/bank.rs:71`): selector back
to 0 and every candidate reset. -/
def bankReset {D : Type} (ops : DevOps D) (b : BankI D) : BankI D :=
  { sel := 0, banks := b.banks.map ops.reset }

/-!
## A concrete device universe

For concrete counterexamples the devices mapped on a bus are either a `Ram`
(a list of bytes) or a nested `Bus` whose own devices are `Ram`s — exactly
the shapes the repository's tests build.  The nested bus's `Device` methods
are the generic bus functions instantiated with `ramOps`.
-/

/-- A concrete `Dynamic` device: a `Ram`, or a nested `Bus` of `Ram`s. -/
inductive CDev where
  | ram : List Nat → CDev
  | sub : BusM (List Nat) → CDev
  deriving DecidableEq, Repr

/-- `Device` operations for `CDev`: a `Ram` behaves per `src/src/mem/ram.rs`;
a nested bus behaves per the `Bus` impls of `src/src/bus/mod.rs`. -/
def cOps : DevOps CDev where
  contains d i :=
    match d with
    | CDev.ram data => ramOps.contains data i
    | CDev.sub maps => busContains ramOps maps i
  len d :=
    match d with
    | CDev.ram data => ramOps.len data
    | CDev.sub maps => busLen ramOps maps
  read d i :=
    match d with
    | CDev.ram data => ramOps.read data i
    | CDev.sub maps => (busRead ramOps maps i).getD 0
  write d i v :=
    match d with
    | CDev.ram data => CDev.ram (ramOps.write data i v)
    | CDev.sub maps => CDev.sub ((busWrite ramOps maps i v).getD maps)
  reset d :=
    match d with
    | CDev.ram data => CDev.ram (ramOps.reset data)
    | CDev.sub maps => CDev.sub (busReset ramOps maps)

/-!
## Spec-side definitions

For the refinement comparisons, the following definitions transcribe the
spec's words (not the code); each is compared against the code-derived
definition above.
-/

/-- The spec's resolution rule, transcribed from §4.3: "consider all mapping
starts `<= index` in descending order; for each (processing its same-base
mappings narrowest-first), test whether `index - start` is within that
mapping's device length; return the first match."  Identical walk to
`Bus::at`, but the match test is the device-length test rather than the
device's `contains`. -/
def specResolve {D : Type} (ops : DevOps D) (maps : BusM D) (idx : Nat) :
    Option (Nat × D) :=
  (busCands maps idx).find? (fun p => decide (idx - p.1 < ops.len p.2))

/-- The spec's `len()`, transcribed from §4.4: "span from lowest mapped start
to highest mapped end (0 if empty)", the bounds taken over the current
mappings. -/
def specBusLen {D : Type} (ops : DevOps D) (maps : BusM D) : Nat :=
  if (busMappings maps).isEmpty then 0
  else (((busMappings maps).map (fun p => p.1 + ops.len p.2)).max?).getD 0 -
    (((busMappings maps).map (fun p => p.1)).min?).getD 0

example : specBusLen ramOps [(5, []), (16, [[9]])] = 1 := by decide
example : busLen ramOps [(5, []), (16, [[9]])] = 12 := by decide

/-!
## Resolution-order lemmas for the middle-generation `Bus`
-/

theorem busMappings_nil {D : Type} : busMappings ([] : BusM D) = [] := rfl

theorem busMappings_cons {D : Type} (k : Nat) (ds : List D) (rest : BusM D) :
    busMappings ((k, ds) :: rest) = ds.map (fun d => (k, d)) ++ busMappings rest := by
  simp [busMappings]

theorem mem_busMappings {D : Type} {maps : BusM D} {b : Nat} {d : D} :
    (b, d) ∈ busMappings maps ↔ ∃ vec, (b, vec) ∈ maps ∧ d ∈ vec := by
  simp only [busMappings, List.mem_flatMap, List.mem_map]
  constructor
  · rintro ⟨⟨k, vec⟩, hp, d', hd', heq⟩
    cases heq
    exact ⟨vec, hp, hd'⟩
  · rintro ⟨vec, hv, hd⟩
    exact ⟨(b, vec), hv, d, hd, rfl⟩

theorem mem_busCands {D : Type} {maps : BusM D} {idx b : Nat} {d : D} :
    (b, d) ∈ busCands maps idx ↔ ((b, d) ∈ busMappings maps ∧ b ≤ idx) := by
  unfold busCands
  rw [mem_busMappings, mem_busMappings]
  constructor
  · rintro ⟨vec, hv, hd⟩
    rw [List.mem_reverse, List.mem_filter] at hv
    exact ⟨⟨vec, hv.1, hd⟩, by simpa using hv.2⟩
  · rintro ⟨⟨vec, hv, hd⟩, hle⟩
    refine ⟨vec, ?_, hd⟩
    rw [List.mem_reverse, List.mem_filter]
    exact ⟨hv, by simpa⟩

theorem findCongr {α : Type} {p q : α → Bool} (l : List α) (h : ∀ x ∈ l, p x = q x) :
    l.find? p = l.find? q := by
  induction l with
  | nil => rfl
  | cons x xs ih =>
    have hx : p x = q x := h x (by simp)
    simp only [List.find?, hx]
    cases q x
    · exact ih (fun y hy => h y (by simp [hy]))
    · rfl

/-- In a vector sorted by device length, the first match of a predicate has
minimal length among all matches. -/
theorem vecFirstMin {D : Type} (ops : DevOps D) (q : D → Bool) :
    ∀ (ds : List D), List.Pairwise (fun a b => ops.len a ≤ ops.len b) ds →
      ∀ d, ds.find? q = some d → ∀ d' ∈ ds, q d' = true → ops.len d ≤ ops.len d'
  | [], _, d, hf => by simp at hf
  | x :: xs, hs, d, hf => by
    rcases List.pairwise_cons.mp hs with ⟨hx, hxs⟩
    simp only [List.find?] at hf
    cases hqx : q x with
    | true =>
      rw [hqx] at hf
      cases hf
      intro d' hd' _
      rcases List.mem_cons.mp hd' with rfl | hmem
      · exact Nat.le_refl _
      · exact hx d' hmem
    | false =>
      rw [hqx] at hf
      intro d' hd' hq'
      rcases List.mem_cons.mp hd' with rfl | hmem
      · rw [hq'] at hqx
        cases hqx
      · exact vecFirstMin ops q xs hxs d hf d' hmem hq'

/-- Over a key-descending list whose vectors are length-sorted, the first
match of `find?` over the flattened mappings dominates every other match:
any other matching candidate has a strictly smaller base, or the same base
and a length at least as large. -/
theorem keysFirstSpec {D : Type} (ops : DevOps D) (pr : Nat × D → Bool) :
    ∀ (L : List (Nat × List D)),
      List.Pairwise (fun p q => q.1 < p.1) L →
      (∀ p ∈ L, List.Pairwise (fun a b => ops.len a ≤ ops.len b) p.2) →
      ∀ bd, (busMappings L).find? pr = some bd →
        ∀ b' d', (b', d') ∈ busMappings L → pr (b', d') = true →
          b' < bd.1 ∨ (b' = bd.1 ∧ ops.len bd.2 ≤ ops.len d')
  | [], _, _, bd, hf => by simp [busMappings_nil] at hf
  | (k, ds) :: rest, hdesc, hvec, bd, hf => by
    rcases List.pairwise_cons.mp hdesc with ⟨hk, hdesc'⟩
    rw [busMappings_cons, List.find?_append] at hf
    cases hhead : (ds.map (fun d => (k, d))).find? pr with
    | some x =>
      rw [hhead] at hf
      simp only [Option.or_some] at hf
      cases hf
      rw [List.find?_map] at hhead
      cases hds : ds.find? (pr ∘ fun d => (k, d)) with
      | none => rw [hds] at hhead; cases hhead
      | some d0 =>
        rw [hds] at hhead
        simp only [Option.map_some'] at hhead
        cases hhead
        intro b' d' hmem hpr
        rw [busMappings_cons, List.mem_append] at hmem
        rcases hmem with hmem | hmem
        · rcases List.mem_map.mp hmem with ⟨dd, hdd, heq⟩
          injection heq with h1 h2
          subst h1
          subst h2
          refine Or.inr ⟨rfl, ?_⟩
          exact vecFirstMin ops _ ds (hvec (k, ds) (by simp)) d0 hds dd hdd
            (by simpa using hpr)
        · rcases mem_busMappings.mp hmem with ⟨vec, hv, _⟩
          exact Or.inl (hk (b', vec) hv)
    | none =>
      rw [hhead] at hf
      simp only [Option.none_or] at hf
      intro b' d' hmem hpr
      rw [busMappings_cons, List.mem_append] at hmem
      rcases hmem with hmem | hmem
      · exact absurd hpr (by simpa using List.find?_eq_none.mp hhead _ hmem)
      · exact keysFirstSpec ops pr rest hdesc'
          (fun p hp => hvec p (by simp [hp])) bd hf b' d' hmem hpr

/-- The candidate list of `Bus::at` is the flattening of the reversed
filtered table. -/
theorem busCands_eq {D : Type} (maps : BusM D) (idx : Nat) :
    busCands maps idx = busMappings ((maps.filter (fun p => p.1 ≤ idx)).reverse) := rfl

/-- C1, amended.  Address resolution considers all mapping bases `<= index` in
descending order, within each base its same-base mappings narrowest-first, and
returns the first mapping whose device reports containment of `index - base`
(`dev.contains`); when every device's containment test agrees with the
device-length test — every device "without holes" — this is exactly the
claim's length test.  If no mapping matches, resolution fails. -/
theorem busAt_resolution_order {D : Type} (ops : DevOps D) (maps : BusM D) (idx : Nat)
    (h : BusWF ops maps) :
    (busAt ops maps idx = none ↔
      ∀ b d, (b, d) ∈ busMappings maps → b ≤ idx → ops.contains d (idx - b) = false) ∧
    (∀ b d, busAt ops maps idx = some (b, d) →
      (b, d) ∈ busMappings maps ∧ b ≤ idx ∧ ops.contains d (idx - b) = true ∧
      ∀ b' d', (b', d') ∈ busMappings maps → b' ≤ idx →
        ops.contains d' (idx - b') = true →
        (b' < b ∨ (b' = b ∧ ops.len d ≤ ops.len d'))) ∧
    ((∀ b d, (b, d) ∈ busMappings maps → ∀ j, ops.contains d j = decide (j < ops.len d)) →
      busAt ops maps idx = specResolve ops maps idx) := by
  have hdesc : List.Pairwise (fun p q => q.1 < p.1)
      ((maps.filter (fun p => p.1 ≤ idx)).reverse) := by
    rw [List.pairwise_reverse]
    exact (h.1.filter _)
  have hvec : ∀ p ∈ (maps.filter (fun p => p.1 ≤ idx)).reverse,
      List.Pairwise (fun a b => ops.len a ≤ ops.len b) p.2 := by
    intro p hp
    rw [List.mem_reverse, List.mem_filter] at hp
    exact h.2 p hp.1
  refine ⟨?_, ?_, ?_⟩
  · unfold busAt
    rw [List.find?_eq_none]
    constructor
    · intro hall b d hmem hle
      have := hall (b, d) (mem_busCands.mpr ⟨hmem, hle⟩)
      simpa using this
    · rintro hall ⟨b, d⟩ hmem
      rcases mem_busCands.mp hmem with ⟨hm, hle⟩
      simp [hall b d hm hle]
  · intro b d hsome
    have hpr : ops.contains d (idx - b) = true := by
      simpa using List.find?_some hsome
    have hmem : (b, d) ∈ busCands maps idx := List.mem_of_find?_eq_some hsome
    rcases mem_busCands.mp hmem with ⟨hm, hle⟩
    refine ⟨hm, hle, hpr, ?_⟩
    intro b' d' hmem' hle' hpr'
    have := keysFirstSpec ops (fun p => ops.contains p.2 (idx - p.1)) _
      hdesc hvec (b, d) (by simpa [busAt, busCands_eq] using hsome) b' d'
      (by rw [← busCands_eq]; exact mem_busCands.mpr ⟨hmem', hle'⟩) (by simpa using hpr')
    simpa using this
  · intro hsolid
    unfold busAt specResolve
    refine findCongr _ ?_
    rintro ⟨b, d⟩ hx
    rcases mem_busCands.mp hx with ⟨hm, _⟩
    exact hsolid b d hm (idx - b)

/-- C1, counterexample to the claim as stated.  A nested sub-bus with a hole
(two `Ram`s of length 2 at sub-bases 0 and 4, overall length 6) is mapped at
base 8 over a length-16 `Ram` at base 0 — the shape of the repository's own
`address_read_write_holes_mapped_works` test.  At probed index 10 the sub-bus
mapping has `index - base = 2 < 6`, within the device's length, and its base
is considered first, so the claimed rule resolves to the sub-bus; the code's
`Bus::at`, whose match test is `dev.contains(index - base)`, skips it (the
sub-bus does not contain local index 2) and resolves to the base-0 `Ram`. -/
theorem busAt_not_length_test :
    BusWF cOps
      [(0, [CDev.ram (List.replicate 16 170)]),
       (8, [CDev.sub [(0, [[11, 11]]), (4, [[12, 12]])]])] ∧
    specResolve cOps
      [(0, [CDev.ram (List.replicate 16 170)]),
       (8, [CDev.sub [(0, [[11, 11]]), (4, [[12, 12]])]])] 10 =
      some (8, CDev.sub [(0, [[11, 11]]), (4, [[12, 12]])]) ∧
    busAt cOps
      [(0, [CDev.ram (List.replicate 16 170)]),
       (8, [CDev.sub [(0, [[11, 11]]), (4, [[12, 12]])]])] 10 =
      some (0, CDev.ram (List.replicate 16 170)) ∧
    specResolve cOps
      [(0, [CDev.ram (List.replicate 16 170)]),
       (8, [CDev.sub [(0, [[11, 11]]), (4, [[12, 12]])]])] 10 ≠
    busAt cOps
      [(0, [CDev.ram (List.replicate 16 170)]),
       (8, [CDev.sub [(0, [[11, 11]]), (4, [[12, 12]])]])] 10 := by
  refine ⟨?_, by decide, by decide, by decide⟩
  constructor
  · decide
  · decide

/-- Witness for `busAt_resolution_order` at a concrete bus. -/
theorem busAt_resolution_order_witness :
    BusWF ramOps [(0, [[7, 7]]), (1, [[9]])] ∧
      ((1, [9]) ∈ busMappings [(0, [[7, 7]]), (1, [[9]])] ∧ 1 ≤ 1 ∧
        ramOps.contains [9] (1 - 1) = true) :=
  ⟨by decide, by
    have h := (busAt_resolution_order ramOps [(0, [[7, 7]]), (1, [[9]])] 1
      (by decide)).2.1 1 [9] (by decide)
    exact ⟨h.1, h.2.1, h.2.2.1⟩⟩

/-!
## Same-base tie-break (interval index)
-/

/-- C2.  Two mappings sharing base `k` covering `l1` and `l2` indices
(`l1 < l2`), inserted in either order, are stored narrowest-first under key
`k`, and every probed index in `[k, k+l1)` resolves to the narrower one. -/
theorem sameBase_narrowest_wins {E : Type} (k l1 l2 idx : Nat) (e1 e2 : E)
    (h1 : 1 ≤ l1) (h2 : l1 < l2) (hlo : k ≤ idx) (hhi : idx < k + l1) :
    mapMap k (k + l2 - 1) e2 (mapMap k (k + l1 - 1) e1 []) =
      [(k, [Mapping.mk k (k + l1 - 1) e1, Mapping.mk k (k + l2 - 1) e2])] ∧
    mapMap k (k + l1 - 1) e1 (mapMap k (k + l2 - 1) e2 []) =
      [(k, [Mapping.mk k (k + l1 - 1) e1, Mapping.mk k (k + l2 - 1) e2])] ∧
    mapGet (mapMap k (k + l2 - 1) e2 (mapMap k (k + l1 - 1) e1 [])) idx =
      some (Mapping.mk k (k + l1 - 1) e1) := by
  have hkk : compare k k = Ordering.eq := by simp [Nat.compare_eq_eq]
  have hgt : compare ((k + l2 - 1) - k) ((k + l1 - 1) - k) = Ordering.gt := by
    rw [Nat.compare_eq_gt]
    omega
  have hlt : compare ((k + l1 - 1) - k) ((k + l2 - 1) - k) = Ordering.lt := by
    rw [Nat.compare_eq_lt]
    omega
  have hb : mapMap k (k + l2 - 1) e2 (mapMap k (k + l1 - 1) e1 ([] : MapI E)) =
      [(k, [Mapping.mk k (k + l1 - 1) e1, Mapping.mk k (k + l2 - 1) e2])] := by
    simp [mapMap, setInsert, mappingCmp, Mapping.base, Mapping.rlen, hkk, hgt]
  have hb' : mapMap k (k + l1 - 1) e1 (mapMap k (k + l2 - 1) e2 ([] : MapI E)) =
      [(k, [Mapping.mk k (k + l1 - 1) e1, Mapping.mk k (k + l2 - 1) e2])] := by
    simp [mapMap, setInsert, mappingCmp, Mapping.base, Mapping.rlen, hkk, hlt]
  refine ⟨hb, hb', ?_⟩
  rw [hb]
  have hm : (Mapping.mk k (k + l1 - 1) e1).mem idx = true := by
    simp only [Mapping.mem, Bool.and_eq_true, decide_eq_true_eq]
    omega
  have hk : decide (k ≤ idx) = true := decide_eq_true hlo
  simp [mapGet, mapFlatten, hk, List.find?, hm]

/-- Witness for `sameBase_narrowest_wins` at `k = 0`, `l1 = 1`, `l2 = 2`,
probed index 0. -/
theorem sameBase_narrowest_wins_witness :
    (1 ≤ 1 ∧ 1 < 2 ∧ 0 ≤ 0 ∧ 0 < 0 + 1) ∧
      mapGet (mapMap 0 (0 + 2 - 1) (0 : Nat) (mapMap 0 (0 + 1 - 1) 1 [])) 0 =
        some (Mapping.mk 0 (0 + 1 - 1) 1) :=
  ⟨⟨by decide, by decide, by decide, by decide⟩,
    (sameBase_narrowest_wins 0 1 2 0 1 0 (by decide) (by decide) (by decide)
      (by decide)).2.2⟩

/-!
## Retention on insert (interval index)
-/

/-- C3, counterexample to the claim as stated.  Mapping two distinct entries
(1 then 0) over the identical range `[0, 1]`: `Mapping`'s order compares only
base and length, so the `BTreeSet` under base 0 treats the second mapping as
equal to the first and `insert` drops it — the index afterwards holds only the
first mapping, not both. -/
theorem mapMap_drops_identical_range :
    mapMap 0 1 (0 : Nat) (mapMap 0 1 1 []) = [(0, [Mapping.mk 0 1 1])] ∧
      Mapping.mk 0 1 (0 : Nat) ∉ mapFlatten (mapMap 0 1 0 (mapMap 0 1 1 [])) := by
  constructor
  · decide
  · decide

theorem mem_mapFlatten {E : Type} {m : MapI E} {x : Mapping E} :
    x ∈ mapFlatten m ↔ ∃ p ∈ m, x ∈ p.2 := by
  simp [mapFlatten, List.mem_flatMap]

theorem mappingCmp_self {E : Type} (a : Mapping E) : mappingCmp a a = Ordering.eq := by
  have h1 : compare a.base a.base = Ordering.eq := by simp [Nat.compare_eq_eq]
  have h2 : compare a.rlen a.rlen = Ordering.eq := by simp [Nat.compare_eq_eq]
  simp [mappingCmp, h1, h2]

theorem mappingCmp_of_base_eq {E : Type} {a b : Mapping E} (h : a.base = b.base) :
    mappingCmp a b = compare a.rlen b.rlen := by
  have h1 : compare a.base b.base = Ordering.eq := by
    rw [Nat.compare_eq_eq]
    exact h
  cases hr : compare a.rlen b.rlen <;> simp [mappingCmp, h1, hr]

theorem setInsert_mem_old {E : Type} (m : Mapping E) :
    ∀ (ms : List (Mapping E)), ∀ x ∈ ms, x ∈ setInsert m ms
  | [], x, hx => by cases hx
  | y :: ys, x, hx => by
    unfold setInsert
    cases h : mappingCmp m y
    · simp only []
      rcases List.mem_cons.mp hx with rfl | hmem
      · simp
      · simp [List.mem_cons.mpr (Or.inr hmem)]
    · exact hx
    · rcases List.mem_cons.mp hx with rfl | hmem
      · simp
      · simp [setInsert_mem_old m ys x hmem]

/-- If no element of a same-base, length-sorted set has the probe's length,
`insert` places the probe, keeps every old element, adds nothing else, and
preserves strict length-sortedness. -/
theorem setInsert_no_eq {E : Type} (m : Mapping E) :
    ∀ (ms : List (Mapping E)), (∀ x ∈ ms, x.base = m.base) →
      List.Pairwise (fun a b => a.rlen < b.rlen) ms →
      (∀ x ∈ ms, x.rlen ≠ m.rlen) →
      m ∈ setInsert m ms ∧
        List.Pairwise (fun a b => a.rlen < b.rlen) (setInsert m ms) ∧
        (∀ y ∈ setInsert m ms, y ∈ ms ∨ y = m)
  | [], _, _, _ => by simp [setInsert]
  | y :: ys, hb, hs, hne => by
    rcases List.pairwise_cons.mp hs with ⟨hy, hys⟩
    have hcmp : mappingCmp m y = compare m.rlen y.rlen :=
      mappingCmp_of_base_eq (hb y (by simp)).symm
    rcases Nat.lt_trichotomy m.rlen y.rlen with hlt | heq | hgt
    · have h : mappingCmp m y = Ordering.lt := by
        rw [hcmp, Nat.compare_eq_lt]
        exact hlt
      unfold setInsert
      rw [h]
      refine ⟨by simp, ?_, ?_⟩
      · rw [List.pairwise_cons]
        refine ⟨?_, hs⟩
        intro z hz
        rcases List.mem_cons.mp hz with rfl | hmem
        · exact hlt
        · exact Nat.lt_trans hlt (hy z hmem)
      · intro z hz
        rcases List.mem_cons.mp hz with rfl | hmem
        · exact Or.inr rfl
        · exact Or.inl hmem
    · exact absurd heq.symm (hne y (by simp))
    · have h : mappingCmp m y = Ordering.gt := by
        rw [hcmp, Nat.compare_eq_gt]
        exact hgt
      unfold setInsert
      rw [h]
      obtain ⟨ih1, ih2, ih3⟩ := setInsert_no_eq m ys
        (fun x hx => hb x (by simp [hx])) hys (fun x hx => hne x (by simp [hx]))
      refine ⟨by simp [ih1], ?_, ?_⟩
      · rw [List.pairwise_cons]
        refine ⟨?_, ih2⟩
        intro z hz
        rcases ih3 z hz with hmem | rfl
        · exact hy z hmem
        · exact hgt
      · intro z hz
        rcases List.mem_cons.mp hz with rfl | hmem
        · exact Or.inl (by simp)
        · rcases ih3 z hmem with hmem' | rfl
          · exact Or.inl (by simp [hmem'])
          · exact Or.inr rfl

/-- If some element of a same-base, length-sorted set has the probe's length,
`insert` leaves the set unchanged. -/
theorem setInsert_has_eq {E : Type} (m : Mapping E) :
    ∀ (ms : List (Mapping E)), (∀ x ∈ ms, x.base = m.base) →
      List.Pairwise (fun a b => a.rlen < b.rlen) ms →
      (∃ x ∈ ms, x.rlen = m.rlen) →
      setInsert m ms = ms
  | [], _, _, hex => by simp at hex
  | y :: ys, hb, hs, hex => by
    rcases List.pairwise_cons.mp hs with ⟨hy, hys⟩
    have hcmp : mappingCmp m y = compare m.rlen y.rlen :=
      mappingCmp_of_base_eq (hb y (by simp)).symm
    rcases Nat.lt_trichotomy m.rlen y.rlen with hlt | heq | hgt
    · exfalso
      rcases hex with ⟨x, hx, hxr⟩
      rcases List.mem_cons.mp hx with rfl | hmem
      · omega
      · have := hy x hmem
        omega
    · have h : mappingCmp m y = Ordering.eq := by
        rw [hcmp, Nat.compare_eq_eq]
        exact heq
      unfold setInsert
      rw [h]
    · have h : mappingCmp m y = Ordering.gt := by
        rw [hcmp, Nat.compare_eq_gt]
        exact hgt
      unfold setInsert
      rw [h]
      have hex' : ∃ x ∈ ys, x.rlen = m.rlen := by
        rcases hex with ⟨x, hx, hxr⟩
        rcases List.mem_cons.mp hx with rfl | hmem
        · omega
        · exact ⟨x, hmem, hxr⟩
      rw [setInsert_has_eq m ys (fun x hx => hb x (by simp [hx])) hys hex']

theorem mapFlatten_cons {E : Type} (k : Nat) (ds : List (Mapping E)) (rest : MapI E) :
    mapFlatten ((k, ds) :: rest) = ds ++ mapFlatten rest := by
  simp [mapFlatten]

theorem mapMap_keys_subset {E : Type} (s t : Nat) (e : E) :
    ∀ (m : MapI E) (q : Nat × List (Mapping E)), q ∈ mapMap s t e m →
      q.1 = s ∨ ∃ p ∈ m, q.1 = p.1
  | [], q, hq => by
    simp only [mapMap, List.mem_singleton] at hq
    subst hq
    exact Or.inl rfl
  | (k, ds) :: rest, q, hq => by
    simp only [mapMap] at hq
    by_cases h1 : s < k
    · rw [if_pos h1] at hq
      rcases List.mem_cons.mp hq with rfl | hmem
      · exact Or.inl rfl
      · rcases List.mem_cons.mp hmem with rfl | hmem'
        · exact Or.inr ⟨(k, ds), by simp, rfl⟩
        · exact Or.inr ⟨q, by simp [hmem'], rfl⟩
    · rw [if_neg h1] at hq
      by_cases h2 : s = k
      · rw [if_pos h2] at hq
        rcases List.mem_cons.mp hq with rfl | hmem
        · exact Or.inl h2.symm
        · exact Or.inr ⟨q, by simp [hmem], rfl⟩
      · rw [if_neg h2] at hq
        rcases List.mem_cons.mp hq with rfl | hmem
        · exact Or.inr ⟨(k, ds), by simp, rfl⟩
        · rcases mapMap_keys_subset s t e rest q hmem with h | ⟨p, hp, hqp⟩
          · exact Or.inl h
          · exact Or.inr ⟨p, by simp [hp], hqp⟩

/-- C3, amended.  `map(range, entry)` retains every previously inserted
mapping.  The new mapping is inserted, and the index stays well-formed with
each base's set ordered by the ascending-length tie-break, provided no mapping
with the same base and length is already present; if one is (in particular
when mapping a second entry over an identical range), the insert is dropped
and the index is unchanged. -/
theorem mapMap_retains {E : Type} (s t : Nat) (e : E) :
    ∀ (m : MapI E), MapWF m →
      (∀ x ∈ mapFlatten m, x ∈ mapFlatten (mapMap s t e m)) ∧
      ((∀ x ∈ mapFlatten m, ¬(x.base = s ∧ x.rlen = t - s)) →
        Mapping.mk s t e ∈ mapFlatten (mapMap s t e m) ∧ MapWF (mapMap s t e m)) ∧
      ((∃ x ∈ mapFlatten m, x.base = s ∧ x.rlen = t - s) → mapMap s t e m = m)
  | [], _ => by
    refine ⟨by simp [mapFlatten], ?_, ?_⟩
    · intro _
      constructor
      · simp [mapMap, mapFlatten]
      · refine ⟨by simp [mapMap], ?_⟩
        intro p hp
        simp only [mapMap, List.mem_singleton] at hp
        subst hp
        exact ⟨by simp [Mapping.base], by simp⟩
    · intro hex
      simp [mapFlatten] at hex
  | (k, ds) :: rest, hwf => by
    obtain ⟨hkeys, hsets⟩ := hwf
    rcases List.pairwise_cons.mp hkeys with ⟨hklt, hkeys'⟩
    have hWFrest : MapWF rest := ⟨hkeys', fun p hp => hsets p (by simp [hp])⟩
    have hbases : ∀ x ∈ ds, x.base = k := (hsets (k, ds) (by simp)).1
    have hsorted : List.Pairwise (fun a b => a.rlen < b.rlen) ds :=
      (hsets (k, ds) (by simp)).2
    have hrestbase : ∀ x ∈ mapFlatten rest, k < x.base := by
      intro x hx
      rcases mem_mapFlatten.mp hx with ⟨p, hp, hxp⟩
      rw [(hsets p (by simp [hp])).1 x hxp]
      exact hklt p hp
    rcases Nat.lt_trichotomy s k with hsk | hsk | hsk
    · have hm : mapMap s t e ((k, ds) :: rest) = (s, [Mapping.mk s t e]) :: (k, ds) :: rest := by
        simp only [mapMap]
        rw [if_pos hsk]
      rw [hm]
      refine ⟨?_, ?_, ?_⟩
      · intro x hx
        rw [mapFlatten_cons]
        exact List.mem_append_right _ hx
      · intro _
        constructor
        · rw [mapFlatten_cons]
          exact List.mem_append_left _ (by simp)
        · constructor
          · rw [List.pairwise_cons]
            refine ⟨?_, hkeys⟩
            intro q hq
            rcases List.mem_cons.mp hq with rfl | hmem
            · exact hsk
            · exact Nat.lt_trans hsk (hklt q hmem)
          · intro p hp
            rcases List.mem_cons.mp hp with rfl | hmem
            · exact ⟨by simp [Mapping.base], by simp⟩
            · exact hsets p hmem
      · rintro ⟨x, hx, hbase, _⟩
        exfalso
        rw [mapFlatten_cons] at hx
        rcases List.mem_append.mp hx with hmem | hmem
        · have := hbases x hmem
          omega
        · have := hrestbase x hmem
          omega
    · subst hsk
      have hm : mapMap s t e ((s, ds) :: rest) =
          (s, setInsert (Mapping.mk s t e) ds) :: rest := by
        simp [mapMap]
      rw [hm]
      refine ⟨?_, ?_, ?_⟩
      · intro x hx
        rw [mapFlatten_cons] at hx ⊢
        rcases List.mem_append.mp hx with hmem | hmem
        · exact List.mem_append_left _ (setInsert_mem_old _ ds x hmem)
        · exact List.mem_append_right _ hmem
      · intro hno
        have hne : ∀ x ∈ ds, x.rlen ≠ (Mapping.mk s t e).rlen := by
          intro x hx
          have := hno x (by rw [mapFlatten_cons]; exact List.mem_append_left _ hx)
          have hxb := hbases x hx
          simp only [Mapping.rlen]
          intro hr
          exact this ⟨hxb, hr⟩
        obtain ⟨hmem, hsorted', hsub⟩ := setInsert_no_eq (Mapping.mk s t e) ds
          (fun x hx => (hbases x hx).trans rfl) hsorted hne
        constructor
        · rw [mapFlatten_cons]
          exact List.mem_append_left _ hmem
        · constructor
          · rw [List.pairwise_cons]
            exact ⟨fun q hq => hklt q hq, hkeys'⟩
          · intro p hp
            rcases List.mem_cons.mp hp with rfl | hmem'
            · refine ⟨?_, hsorted'⟩
              intro y hy
              rcases hsub y hy with hmem'' | rfl
              · exact hbases y hmem''
              · rfl
            · exact hsets p (by simp [hmem'])
      · rintro ⟨x, hx, hbase, hrlen⟩
        rw [mapFlatten_cons] at hx
        rcases List.mem_append.mp hx with hmem | hmem
        · have heq : setInsert (Mapping.mk s t e) ds = ds := by
            refine setInsert_has_eq _ ds (fun y hy => (hbases y hy).trans rfl) hsorted ?_
            exact ⟨x, hmem, by simpa [Mapping.rlen] using hrlen⟩
          rw [heq]
        · have := hrestbase x hmem
          omega
    · have hm : mapMap s t e ((k, ds) :: rest) = (k, ds) :: mapMap s t e rest := by
        simp only [mapMap]
        rw [if_neg (by omega), if_neg (by omega)]
      rw [hm]
      obtain ⟨ih1, ih2, ih3⟩ := mapMap_retains s t e rest hWFrest
      refine ⟨?_, ?_, ?_⟩
      · intro x hx
        rw [mapFlatten_cons] at hx ⊢
        rcases List.mem_append.mp hx with hmem | hmem
        · exact List.mem_append_left _ hmem
        · exact List.mem_append_right _ (ih1 x hmem)
      · intro hno
        obtain ⟨hmem, hwf'⟩ := ih2 (fun x hx => hno x
          (by rw [mapFlatten_cons]; exact List.mem_append_right _ hx))
        constructor
        · rw [mapFlatten_cons]
          exact List.mem_append_right _ hmem
        · constructor
          · rw [List.pairwise_cons]
            refine ⟨?_, hwf'.1⟩
            intro q hq
            rcases mapMap_keys_subset s t e rest q hq with hq1 | ⟨p, hp, hq1⟩
            · omega
            · rw [hq1]
              exact hklt p hp
          · intro p hp
            rcases List.mem_cons.mp hp with rfl | hmem'
            · exact hsets (k, ds) (by simp)
            · exact hwf'.2 p hmem'
      · rintro ⟨x, hx, hbase, hrlen⟩
        rw [mapFlatten_cons] at hx
        rcases List.mem_append.mp hx with hmem | hmem
        · have := hbases x hmem
          omega
        · rw [ih3 ⟨x, hmem, hbase, hrlen⟩]

/-- Witness for `mapMap_retains`: a fresh longer range at base 0 keeps the
old mapping. -/
theorem mapMap_retains_witness :
    MapWF [(0, [Mapping.mk 0 1 (1 : Nat)])] ∧
      Mapping.mk 0 1 (1 : Nat) ∈ mapFlatten (mapMap 0 5 0 [(0, [Mapping.mk 0 1 1])]) :=
  ⟨by decide,
    (mapMap_retains 0 5 0 [(0, [Mapping.mk 0 1 1])] (by decide)).1
      (Mapping.mk 0 1 1) (by decide)⟩

/-!
## Agreement of `Bus::at` and `Bus::at_mut`, and translation correctness
-/

theorem vecPos_none_iff {D : Type} (ops : DevOps D) (k idx : Nat) :
    ∀ (ds : List D), vecFindPos ops k idx ds = none ↔
      ds.find? (fun d => ops.contains d (idx - k)) = none
  | [] => by simp [vecFindPos]
  | d :: ds => by
    simp only [vecFindPos, List.find?]
    cases h : ops.contains d (idx - k)
    · simpa using vecPos_none_iff ops k idx ds
    · simp

theorem vecPos_some {D : Type} (ops : DevOps D) (k idx : Nat) :
    ∀ (ds : List D) (i : Nat), vecFindPos ops k idx ds = some i →
      ∃ d, ds[i]? = some d ∧ ds.find? (fun d => ops.contains d (idx - k)) = some d
  | [], i, h => by simp [vecFindPos] at h
  | d :: ds, i, h => by
    simp only [vecFindPos] at h
    by_cases hc : ops.contains d (idx - k) = true
    · rw [if_pos hc] at h
      cases h
      exact ⟨d, by simp, by simp [List.find?, hc]⟩
    · rw [if_neg hc] at h
      have hc' : ops.contains d (idx - k) = false := by
        simpa using hc
      cases hj : vecFindPos ops k idx ds with
      | none => rw [hj] at h; cases h
      | some j =>
        rw [hj] at h
        simp only [Option.map_some'] at h
        cases h
        obtain ⟨d', hd', hf⟩ := vecPos_some ops k idx ds j hj
        refine ⟨d', by simpa using hd', ?_⟩
        simp [List.find?, hc', hf]

/-- `Bus::at` and `Bus::at_mut` walk the same candidates: the positional
search fails exactly when the value search does, and on success the device at
the found position is the resolved device. -/
theorem atPos_agree {D : Type} (ops : DevOps D) (idx : Nat) :
    ∀ (L : List (Nat × List D)),
      (L.findSome? (fun p => (vecFindPos ops p.1 idx p.2).map (fun i => (p.1, i))) = none →
        (busMappings L).find? (fun p => ops.contains p.2 (idx - p.1)) = none) ∧
      (∀ kk i, L.findSome?
          (fun p => (vecFindPos ops p.1 idx p.2).map (fun i => (p.1, i))) = some (kk, i) →
        ∃ ds d, (kk, ds) ∈ L ∧ ds[i]? = some d ∧
          (busMappings L).find? (fun p => ops.contains p.2 (idx - p.1)) = some (kk, d))
  | [] => by
    constructor
    · intro _
      simp [busMappings_nil]
    · intro kk i h
      simp [List.findSome?] at h
  | (k, ds) :: rest => by
    have hmapfind : (ds.map (fun d => (k, d))).find?
        (fun p => ops.contains p.2 (idx - p.1)) =
        (ds.find? (fun d => ops.contains d (idx - k))).map (fun d => (k, d)) := by
      rw [List.find?_map]
      rfl
    constructor
    · intro h
      rw [List.findSome?_cons] at h
      cases hv : vecFindPos ops k idx ds with
      | some j => rw [hv] at h; simp at h
      | none =>
        rw [hv] at h
        simp only [Option.map_none'] at h
        rw [busMappings_cons, List.find?_append, hmapfind,
          (vecPos_none_iff ops k idx ds).mp hv]
        simpa using (atPos_agree ops idx rest).1 h
    · intro kk i h
      rw [List.findSome?_cons] at h
      cases hv : vecFindPos ops k idx ds with
      | some j =>
        rw [hv] at h
        simp only [Option.map_some'] at h
        obtain ⟨d, hd, hf⟩ := vecPos_some ops k idx ds j hv
        obtain ⟨hk1, hk2⟩ : kk = k ∧ i = j := by
          injection h with h'
          injection h' with h1 h2
          exact ⟨h1.symm, h2.symm⟩
        subst hk1
        subst hk2
        refine ⟨ds, d, by simp, hd, ?_⟩
        rw [busMappings_cons, List.find?_append, hmapfind, hf]
        rfl
      | none =>
        rw [hv] at h
        simp only [Option.map_none'] at h
        obtain ⟨ds', d, hmem, hd, hf⟩ := (atPos_agree ops idx rest).2 kk i h
        refine ⟨ds', d, by simp [hmem], hd, ?_⟩
        rw [busMappings_cons, List.find?_append, hmapfind,
          (vecPos_none_iff ops k idx ds).mp hv]
        simpa using hf

/-- With distinct keys, the vector looked up at a present key is that key's
vector. -/
theorem busVec_of_mem {D : Type} :
    ∀ {maps : BusM D}, List.Pairwise (fun p q => p.1 < q.1) maps →
      ∀ {k : Nat} {ds : List D}, (k, ds) ∈ maps → busVec maps k = ds := by
  intro maps
  induction maps with
  | nil => intro _ k ds h; cases h
  | cons p rest ih =>
    intro hp k ds hmem
    rcases List.pairwise_cons.mp hp with ⟨hlt, hrest⟩
    rcases List.mem_cons.mp hmem with heq | hmem'
    · cases heq
      simp [busVec]
    · have hne : p.1 ≠ k := by
        have := hlt (k, ds) hmem'
        omega
      have : busVec (p :: rest) k = busVec rest k := by
        simp [busVec, List.filter, hne]
      rw [this]
      exact ih hrest hmem'

/-- C4.  For a device `Dv` winning resolution at probed index `k + i` with
base `k`, the bus read returns exactly `Dv`'s read at local index `i`, and the
bus write stores exactly where `Dv`'s write at local index `i` would: the
table is unchanged except that the winning slot now holds `Dv` written at
`i`. -/
theorem bus_translation {D : Type} (ops : DevOps D) (maps : BusM D) (k i v : Nat)
    (Dv : D) (h : BusWF ops maps) (hat : busAt ops maps (k + i) = some (k, Dv)) :
    busRead ops maps (k + i) = some (ops.read Dv i) ∧
    ∃ pos, busAtPos ops maps (k + i) = some (k, pos) ∧
      (busVec maps k)[pos]? = some Dv ∧
      busWrite ops maps (k + i) v = some (busSet maps k pos (ops.write Dv i v)) := by
  have hki : k + i - k = i := by omega
  constructor
  · unfold busRead
    rw [hat]
    simp [hki]
  · cases hpos : busAtPos ops maps (k + i) with
    | none =>
      exfalso
      have hpos' : ((maps.filter (fun p => p.1 ≤ k + i)).reverse).findSome?
          (fun p => (vecFindPos ops p.1 (k + i) p.2).map (fun i => (p.1, i))) = none := by
        rw [← hpos]
        rfl
      have := (atPos_agree ops (k + i)
        ((maps.filter (fun p => p.1 ≤ k + i)).reverse)).1 hpos'
      rw [busAt, busCands_eq] at hat
      rw [this] at hat
      cases hat
    | some ki =>
      obtain ⟨kk, pos⟩ := ki
      have hpos' : ((maps.filter (fun p => p.1 ≤ k + i)).reverse).findSome?
          (fun p => (vecFindPos ops p.1 (k + i) p.2).map (fun i => (p.1, i))) =
          some (kk, pos) := by
        rw [← hpos]
        rfl
      obtain ⟨ds, d, hmem, hd, hf⟩ := (atPos_agree ops (k + i)
        ((maps.filter (fun p => p.1 ≤ k + i)).reverse)).2 kk pos hpos'
      rw [busAt, busCands_eq] at hat
      obtain ⟨hk1, hk2⟩ : kk = k ∧ d = Dv := by
        have h2 := hf.symm.trans hat
        injection h2 with h'
        injection h' with h1 h2
        exact ⟨h1, h2⟩
      subst hk1
      subst hk2
      have hmem' : (kk, ds) ∈ maps := by
        rw [List.mem_reverse, List.mem_filter] at hmem
        exact hmem.1
      have hvec : busVec maps kk = ds := busVec_of_mem h.1 hmem'
      refine ⟨pos, rfl, ?_, ?_⟩
      · rw [hvec]
        exact hd
      · unfold busWrite
        simp only [hpos, hvec, hd, hki]

/-- Witness for `bus_translation` at a concrete one-device bus. -/
theorem bus_translation_witness :
    (BusWF ramOps [(0, [[7, 7]])] ∧
      busAt ramOps [(0, [[7, 7]])] (0 + 1) = some (0, [7, 7])) ∧
    busRead ramOps [(0, [[7, 7]])] (0 + 1) = some (ramOps.read [7, 7] 1) :=
  ⟨⟨by decide, by decide⟩,
    (bus_translation ramOps [(0, [[7, 7]])] 0 1 5 [7, 7] (by decide) (by decide)).1⟩

/-!
## Mask layer walk
-/

/-- The fallible surface of the bus model, used as a `Mux` layer: `try_read`
and `try_write` succeed exactly when resolution succeeds. -/
def busMuxOps : MuxOps (BusM (List Nat)) where
  tryRead maps i := busRead ramOps maps i
  tryWrite maps i v := busWrite ramOps maps i v

/-- C5.  `Mask` reads and writes walk the layers first to last, skipping those
flagged `skip`; the first layer whose fallible access succeeds provides the
result (for writes, that layer alone is updated in place), and when no layer
succeeds the fallible surface returns `Error::Unmapped` carrying the probed
index. -/
theorem mask_layer_walk {L : Type} (ops : MuxOps L) :
    ∀ (layers : List (Layer L)) (i v : Nat),
      (maskTryRead ops layers i =
        match (layers.filter (fun l => !l.skip)).findSome?
            (fun l => ops.tryRead l.dev i) with
        | some val => Except.ok val
        | none => Except.error (BusErr.unmapped i)) ∧
      (maskTryWrite ops layers i v = Except.error (BusErr.unmapped i) ↔
        ∀ l ∈ layers, l.skip = false → ops.tryWrite l.dev i v = none) ∧
      (∀ res, maskTryWrite ops layers i v = Except.ok res →
        ∃ j l d, layers[j]? = some l ∧ l.skip = false ∧
          ops.tryWrite l.dev i v = some d ∧
          res = layers.set j { l with dev := d } ∧
          ∀ j' l', j' < j → layers[j']? = some l' →
            l'.skip = true ∨ ops.tryWrite l'.dev i v = none)
  | [], i, v => by
    refine ⟨by simp [maskTryRead], ?_, ?_⟩
    · simp [maskTryWrite]
    · intro res h
      simp [maskTryWrite] at h
  | l :: rest, i, v => by
    obtain ⟨ihr, ihw, ihk⟩ := mask_layer_walk ops rest i v
    refine ⟨?_, ?_, ?_⟩
    · cases hs : l.skip
      · simp only [maskTryRead, hs, if_false, List.filter, Bool.not_false]
        cases ht : ops.tryRead l.dev i
        · rw [ihr]
          simp [List.findSome?_cons, ht]
        · simp [List.findSome?_cons, ht]
      · simp only [maskTryRead, hs, if_true, List.filter, Bool.not_true]
        exact ihr
    · cases hs : l.skip
      · simp only [maskTryWrite, hs, if_false]
        cases ht : ops.tryWrite l.dev i v
        · constructor
          · intro h
            cases hres : maskTryWrite ops rest i v with
            | error e =>
              intro l' hl' hsk
              rcases List.mem_cons.mp hl' with rfl | hmem
              · exact ht
              · have he : e = BusErr.unmapped i := by
                  rw [hres] at h
                  simp [Except.map] at h
                  cases e
                  cases h
                  rfl
                exact ihw.mp (by rw [hres, he]) l' hmem hsk
            | ok r =>
              rw [hres] at h
              simp [Except.map] at h
          · intro hall
            have : maskTryWrite ops rest i v = Except.error (BusErr.unmapped i) :=
              ihw.mpr (fun l' hl' hsk => hall l' (by simp [hl']) hsk)
            rw [this]
            rfl
        · constructor
          · intro h
            cases h
          · intro hall
            exact absurd ht (by rw [hall l (by simp) hs]; intro hx; cases hx)
      · simp only [maskTryWrite, hs, if_true]
        constructor
        · intro h
          intro l' hl' hsk
          rcases List.mem_cons.mp hl' with rfl | hmem
          · rw [hs] at hsk
            cases hsk
          · cases hres : maskTryWrite ops rest i v with
            | error e =>
              have he : e = BusErr.unmapped i := by
                rw [hres] at h
                simp [Except.map] at h
                cases e
                cases h
                rfl
              exact ihw.mp (by rw [hres, he]) l' hmem hsk
            | ok r =>
              rw [hres] at h
              simp [Except.map] at h
        · intro hall
          have : maskTryWrite ops rest i v = Except.error (BusErr.unmapped i) :=
            ihw.mpr (fun l' hl' hsk => hall l' (by simp [hl']) hsk)
          rw [this]
          rfl
    · intro res h
      cases hs : l.skip
      · rw [maskTryWrite] at h
        rw [hs, if_neg (by simp)] at h
        cases ht : ops.tryWrite l.dev i v with
        | some d =>
          rw [ht] at h
          cases h
          refine ⟨0, l, d, ?_, ?_, ?_, ?_, ?_⟩
          · simp
          · exact hs
          · exact ht
          · simp [hs]
          · intro j' l' hj' _
            omega
        | none =>
          rw [ht] at h
          cases hres : maskTryWrite ops rest i v with
          | error e => rw [hres] at h; simp [Except.map] at h
          | ok r =>
            rw [hres] at h
            simp only [Except.map] at h
            cases h
            obtain ⟨j, l0, d, hj, hsk0, ht0, hres0, hearlier⟩ := ihk r hres
            refine ⟨j + 1, l0, d, by simpa using hj, hsk0, ht0, ?_, ?_⟩
            · rw [hres0]
              rfl
            · intro j' l' hj' hget
              cases j' with
              | zero =>
                simp at hget
                subst hget
                exact Or.inr ht
              | succ jj =>
                exact hearlier jj l' (by omega) (by simpa using hget)
      · rw [maskTryWrite] at h
        rw [hs, if_pos rfl] at h
        cases hres : maskTryWrite ops rest i v with
        | error e => rw [hres] at h; simp [Except.map] at h
        | ok r =>
          rw [hres] at h
          simp only [Except.map] at h
          cases h
          obtain ⟨j, l0, d, hj, hsk0, ht0, hres0, hearlier⟩ := ihk r hres
          refine ⟨j + 1, l0, d, by simpa using hj, hsk0, ht0, ?_, ?_⟩
          · rw [hres0]
            rfl
          · intro j' l' hj' hget
            cases j' with
            | zero =>
              simp at hget
              subst hget
              exact Or.inl hs
            | succ jj =>
              exact hearlier jj l' (by omega) (by simpa using hget)

/-- Witness for `mask_layer_walk`: a skipped covering layer over a live one. -/
theorem mask_layer_walk_witness :
    maskTryRead busMuxOps
        [Layer.mk [(0, [[7]])] true, Layer.mk [(0, [[9]])] false] 0 =
      match ([Layer.mk [(0, [[7]])] true,
          Layer.mk [(0, [[9]])] false].filter (fun l => !l.skip)).findSome?
          (fun l => busMuxOps.tryRead l.dev 0) with
      | some val => Except.ok val
      | none => Except.error (BusErr.unmapped 0) :=
  (mask_layer_walk busMuxOps
    [Layer.mk [(0, [[7]])] true, Layer.mk [(0, [[9]])] false] 0 0).1

/-!
## Bus length
-/

/-- C6, counterexample to the claim as stated.  `Bus::unmap` removes the
device but leaves its key in the table; `len()` takes its start from the
lowest key, so after unmapping the only device at base 5 (with a device
still at base 16) the code reports `(16 + 1) - 5 = 12`, not the
`17 - 16 = 1` span of the current mappings. -/
theorem busLen_stale_key :
    busUnmap 5 [7] (busMap ramOps 16 [9] (busMap ramOps 5 [7] [])) =
      some ([7], [(5, []), (16, [[9]])]) ∧
    busLen ramOps [(5, []), (16, [[9]])] = 12 ∧
    specBusLen ramOps [(5, []), (16, [[9]])] = 1 ∧
    busLen ramOps [(5, []), (16, [[9]])] ≠ specBusLen ramOps [(5, []), (16, [[9]])] := by
  refine ⟨by decide, by decide, by decide, by decide⟩

/-- C6, amended.  When every key of the table still holds at least one mapping
(no key has been emptied by `unmap`), `len()` equals the highest mapped end
(base plus device length over all current mappings) minus the lowest mapped
start, and equals 0 when the bus is empty. -/
theorem busLen_eq_span {D : Type} (ops : DevOps D) :
    ∀ (maps : BusM D), BusWF ops maps → (∀ p ∈ maps, p.2 ≠ []) →
      busLen ops maps = specBusLen ops maps := by
  intro maps h hne
  cases maps with
  | nil => simp [busLen, specBusLen, busMappings]
  | cons p rest =>
    obtain ⟨k, ds⟩ := p
    obtain ⟨d0, hd0⟩ : ∃ d, d ∈ ds :=
      List.exists_mem_of_ne_nil ds (hne (k, ds) (by simp))
    have hmem0 : (k, d0) ∈ busMappings ((k, ds) :: rest) :=
      mem_busMappings.mpr ⟨ds, by simp, hd0⟩
    have hnonempty : ¬((busMappings ((k, ds) :: rest)).isEmpty = true) := by
      rw [List.isEmpty_iff]
      intro hq
      rw [hq] at hmem0
      cases hmem0
    have hminmem : k ∈ (busMappings ((k, ds) :: rest)).map (fun p => p.1) :=
      List.mem_map.mpr ⟨(k, d0), hmem0, rfl⟩
    have hminle : ∀ b ∈ (busMappings ((k, ds) :: rest)).map (fun p => p.1), k ≤ b := by
      intro b hb
      rcases List.mem_map.mp hb with ⟨q, hq, rfl⟩
      obtain ⟨b', d'⟩ := q
      rcases mem_busMappings.mp hq with ⟨vec, hvec, _⟩
      rcases List.mem_cons.mp hvec with heq | hmem'
      · cases heq
        exact Nat.le_refl _
      · exact Nat.le_of_lt ((List.pairwise_cons.mp h.1).1 (b', vec) hmem')
    have hmin : ((busMappings ((k, ds) :: rest)).map (fun p => p.1)).min? = some k :=
      List.min?_eq_some_iff'.mpr ⟨hminmem, hminle⟩
    simp only [busLen, specBusLen]
    rw [if_neg hnonempty, hmin]
    simp

/-- Witness for `busLen_eq_span` at a concrete two-device bus. -/
theorem busLen_eq_span_witness :
    (BusWF ramOps [(5, [[7]]), (16, [[9]])] ∧
      (∀ p ∈ ([(5, [[7]]), (16, [[9]])] : BusM (List Nat)), p.2 ≠ [])) ∧
    busLen ramOps [(5, [[7]]), (16, [[9]])] = specBusLen ramOps [(5, [[7]]), (16, [[9]])] :=
  ⟨⟨by decide, by decide⟩,
    busLen_eq_span ramOps [(5, [[7]]), (16, [[9]])] (by decide) (by decide)⟩

/-!
## Unmap idempotence (interval index)
-/

theorem mapGet_mem {E : Type} {m : MapI E} {idx : Nat} {mp : Mapping E}
    (h : mapGet m idx = some mp) : mp ∈ mapFlatten m := by
  have hmem := List.mem_of_find?_eq_some h
  rcases mem_mapFlatten.mp hmem with ⟨p, hp, hmp⟩
  rw [List.mem_reverse, List.mem_filter] at hp
  exact mem_mapFlatten.mpr ⟨p, hp.1, hmp⟩

/-- `BTreeSet::take` of an element present in a same-base, strictly
length-sorted set removes exactly that element. -/
theorem setTake_found {E : Type} (found : Mapping E) :
    ∀ (ms : List (Mapping E)), (∀ x ∈ ms, x.base = found.base) →
      List.Pairwise (fun a b => a.rlen < b.rlen) ms → found ∈ ms →
      ∃ pre suf, ms = pre ++ found :: suf ∧
        setTake found ms = some (found, pre ++ suf)
  | [], _, _, hmem => by cases hmem
  | y :: ys, hb, hs, hmem => by
    rcases List.pairwise_cons.mp hs with ⟨hy, hys⟩
    have hcmp : mappingCmp found y = compare found.rlen y.rlen :=
      mappingCmp_of_base_eq (hb y (by simp)).symm
    rcases Nat.lt_trichotomy found.rlen y.rlen with hlt | heq | hgt
    · exfalso
      rcases List.mem_cons.mp hmem with rfl | hmem'
      · omega
      · have := hy found hmem'
        omega
    · have hfy : found = y := by
        rcases List.mem_cons.mp hmem with rfl | hmem'
        · rfl
        · have := hy found hmem'
          omega
      subst hfy
      refine ⟨[], ys, by simp, ?_⟩
      have h : mappingCmp found found = Ordering.eq := mappingCmp_self found
      simp [setTake, h]
    · have hmem' : found ∈ ys := by
        rcases List.mem_cons.mp hmem with rfl | hmem'
        · omega
        · exact hmem'
      obtain ⟨pre, suf, hys', htake⟩ := setTake_found found ys
        (fun x hx => hb x (by simp [hx])) hys hmem'
      have h : mappingCmp found y = Ordering.gt := by
        rw [hcmp, Nat.compare_eq_gt]
        exact hgt
      refine ⟨y :: pre, suf, by simp [hys'], ?_⟩
      simp [setTake, h, htake]

/-- Looking up a present key (under distinct keys) returns its stored set. -/
theorem mapGetSet_of_mem {E : Type} :
    ∀ {m : MapI E}, List.Pairwise (fun p q => p.1 < q.1) m →
      ∀ {k : Nat} {ms : List (Mapping E)}, (k, ms) ∈ m → mapGetSet m k = some ms := by
  intro m
  induction m with
  | nil => intro _ k ms h; cases h
  | cons p rest ih =>
    intro hp k ms hmem
    rcases List.pairwise_cons.mp hp with ⟨hlt, hrest⟩
    rcases List.mem_cons.mp hmem with heq | hmem'
    · cases heq
      simp [mapGetSet]
    · have hne : p.1 ≠ k := by
        have := hlt (k, ms) hmem'
        omega
      have hstep : mapGetSet (p :: rest) k = mapGetSet rest k := by
        simp [mapGetSet, List.filter, hne]
      rw [hstep]
      exact ih hrest hmem'

/-- Replacing an absent key is the identity. -/
theorem mapSetAt_id {E : Type} (k : Nat) (ms' : List (Mapping E)) :
    ∀ (m : MapI E), (∀ p ∈ m, p.1 ≠ k) → mapSetAt m k ms' = m
  | [], _ => rfl
  | p :: rest, h => by
    have hne : p.1 ≠ k := h p (by simp)
    simp only [mapSetAt, List.map]
    rw [if_neg hne]
    have := mapSetAt_id k ms' rest (fun q hq => h q (by simp [hq]))
    simp only [mapSetAt] at this
    rw [this]

/-- Count balance when one key's set is replaced. -/
theorem countP_flatten_setAt {E : Type} (P : Mapping E → Bool) :
    ∀ (m : MapI E), List.Pairwise (fun p q => p.1 < q.1) m →
      ∀ (k : Nat) (ms ms' : List (Mapping E)), (k, ms) ∈ m →
      (mapFlatten (mapSetAt m k ms')).countP P + ms.countP P =
        (mapFlatten m).countP P + ms'.countP P
  | [], _, k, ms, ms', hmem => by cases hmem
  | p :: rest, hp, k, ms, ms', hmem => by
    rcases List.pairwise_cons.mp hp with ⟨hlt, hrest⟩
    by_cases hk : p.1 = k
    · have hpms : p = (k, ms) := by
        rcases List.mem_cons.mp hmem with heq | hmem'
        · exact heq.symm
        · exfalso
          have := hlt (k, ms) hmem'
          omega
      subst hpms
      have hid : mapSetAt rest k ms' = rest := by
        refine mapSetAt_id k ms' rest ?_
        intro q hq
        have := hlt q hq
        omega
      have hstep : mapSetAt ((k, ms) :: rest) k ms' = (k, ms') :: rest := by
        simp only [mapSetAt] at hid ⊢
        simp [hid]
      rw [hstep, mapFlatten_cons, mapFlatten_cons, List.countP_append,
        List.countP_append]
      omega
    · have hmem' : (k, ms) ∈ rest := by
        rcases List.mem_cons.mp hmem with heq | hmem'
        · exfalso
          rw [← heq] at hk
          exact hk rfl
        · exact hmem'
      have hstep : mapSetAt (p :: rest) k ms' = p :: mapSetAt rest k ms' := by
        simp only [mapSetAt, List.map]
        rw [if_neg hk]
      rw [hstep]
      obtain ⟨p1, p2⟩ := p
      rw [mapFlatten_cons, mapFlatten_cons, List.countP_append, List.countP_append]
      have := countP_flatten_setAt P rest hrest k ms ms' hmem'
      omega

/-- C7.  For a handle mapped exactly once, `unmap` succeeds and returns the
handle, a second `unmap` of the same handle returns `None`, and no index
resolves to that handle afterwards (resolution either fails there or yields a
mapping with a different handle). -/
theorem unmap_idempotent {E : Type} [DecidableEq E] (m : MapI E) (e : E)
    (hwf : MapWF m)
    (hcount : (mapFlatten m).countP (fun mp => mp.entry = e) = 1) :
    ∃ m', mapUnmap e m = some (e, m') ∧
      mapUnmap e m' = none ∧
      ∀ idx mp, mapGet m' idx = some mp → mp.entry ≠ e := by
  cases hfind : mapFind e m with
  | none =>
    exfalso
    have hall := List.find?_eq_none.mp hfind
    have : (mapFlatten m).countP (fun mp => decide (mp.entry = e)) = 0 :=
      List.countP_eq_zero.mpr (fun a ha => hall a ha)
    rw [this] at hcount
    cases hcount
  | some found =>
    have hfe : found.entry = e := by
      have := List.find?_some hfind
      simpa using this
    have hfmem : found ∈ mapFlatten m := List.mem_of_find?_eq_some hfind
    rcases mem_mapFlatten.mp hfmem with ⟨⟨kk, ms⟩, hpmem, hfms⟩
    have hkk : found.base = kk := (hwf.2 (kk, ms) hpmem).1 found hfms
    have hget : mapGetSet m found.base = some ms := by
      rw [hkk]
      exact mapGetSet_of_mem hwf.1 hpmem
    obtain ⟨pre, suf, hms, htake⟩ := setTake_found found ms
      (fun x hx => by rw [(hwf.2 (kk, ms) hpmem).1 x hx, hkk])
      (hwf.2 (kk, ms) hpmem).2 hfms
    have hunmap : mapUnmap e m = some (e, mapSetAt m found.base (pre ++ suf)) := by
      simp only [mapUnmap, hfind, hget, htake]
      rw [hfe]
    have hcount' :
        (mapFlatten (mapSetAt m found.base (pre ++ suf))).countP
          (fun mp => mp.entry = e) = 0 := by
      have hbal := countP_flatten_setAt (fun mp => decide (mp.entry = e)) m hwf.1 kk
        ms (pre ++ suf) hpmem
      rw [← hkk] at hbal
      have hmsc : ms.countP (fun mp => decide (mp.entry = e)) =
          (pre ++ suf).countP (fun mp => decide (mp.entry = e)) + 1 := by
        rw [hms, List.countP_append, List.countP_cons, List.countP_append]
        have hft : (decide (found.entry = e)) = true := by simp [hfe]
        simp [hft]
        omega
      rw [hmsc, hcount] at hbal
      omega
    refine ⟨mapSetAt m found.base (pre ++ suf), hunmap, ?_, ?_⟩
    · have hnone : mapFind e (mapSetAt m found.base (pre ++ suf)) = none := by
        rw [mapFind, List.find?_eq_none]
        intro x hx
        have := List.countP_eq_zero.mp hcount' x hx
        simpa using this
      simp [mapUnmap, hnone]
    · intro idx mp hmp
      have hmem := mapGet_mem hmp
      have := List.countP_eq_zero.mp hcount' mp hmem
      simpa using this

/-- Witness for `unmap_idempotent` on a one-mapping index. -/
theorem unmap_idempotent_witness :
    (MapWF [(0, [Mapping.mk 0 1 (7 : Nat)])] ∧
      (mapFlatten [(0, [Mapping.mk 0 1 (7 : Nat)])]).countP
        (fun mp => mp.entry = 7) = 1) ∧
    ∃ m', mapUnmap 7 [(0, [Mapping.mk 0 1 (7 : Nat)])] = some (7, m') ∧
      mapUnmap 7 m' = none ∧
      ∀ idx mp, mapGet m' idx = some mp → mp.entry ≠ 7 :=
  ⟨⟨by decide, by decide⟩,
    unmap_idempotent [(0, [Mapping.mk 0 1 (7 : Nat)])] 7 (by decide) (by decide)⟩

/-!
## View bounds, Bank switching, Mask reset
-/

/-- C8.  A `View` over inclusive `[start, stop]` translates local index `i` to
`i + start`; the access succeeds, delegating to the inner device at the
translated index, exactly when `i < stop - start + 1`, and fails out-of-bounds
otherwise; `contains` accepts exactly those local indices. -/
theorem view_bounds {D : Type} (ops : DevOps D) (v : ViewI D) (h : v.start ≤ v.stop)
    (i val : Nat) :
    (viewRead ops v i = if i < v.stop - v.start + 1
      then some (ops.read v.dev (i + v.start)) else none) ∧
    (viewWrite ops v i val = if i < v.stop - v.start + 1
      then some { v with dev := ops.write v.dev (i + v.start) val } else none) ∧
    viewContains v i = decide (i < v.stop - v.start + 1) := by
  have hiff : (v.start ≤ i + v.start ∧ i + v.start ≤ v.stop) ↔
      i < v.stop - v.start + 1 := by omega
  refine ⟨?_, ?_, ?_⟩
  · unfold viewRead viewTranslate
    by_cases hc : i < v.stop - v.start + 1
    · rw [if_pos (hiff.mpr hc), if_pos hc]
    · rw [if_neg (fun hx => hc (hiff.mp hx)), if_neg hc]
  · unfold viewWrite viewTranslate
    by_cases hc : i < v.stop - v.start + 1
    · rw [if_pos (hiff.mpr hc), if_pos hc]
    · rw [if_neg (fun hx => hc (hiff.mp hx)), if_neg hc]
  · unfold viewContains viewTranslate
    show (decide (v.start ≤ i + v.start) && decide (i + v.start ≤ v.stop)) =
      decide (i < v.stop - v.start + 1)
    rw [← Bool.decide_and]
    exact decide_eq_decide.mpr hiff

/-- Witness for `view_bounds`: the spec's `[0x40, 0xBF]` window over a
256-entry device, local index `0x7F`. -/
theorem view_bounds_witness :
    (0x40 ≤ 0xBF) ∧
      viewRead ramOps (ViewI.mk (List.replicate 256 3) 0x40 0xBF) 0x7F =
        (if 0x7F < 0xBF - 0x40 + 1
          then some (ramOps.read (List.replicate 256 3) (0x7F + 0x40)) else none) :=
  ⟨by decide,
    (view_bounds ramOps (ViewI.mk (List.replicate 256 3) 0x40 0xBF) (by decide)
      0x7F 0).1⟩

/-- C9.  A `Bank` with candidates `[X, Y]`: with selector 0 every read targets
`X`; after `set(1)` the same indices read and write `Y`, leaving `X`
untouched; `reset()` restores selector 0 and resets every candidate. -/
theorem bank_switching {D : Type} (ops : DevOps D) (X Y : D) (i v s : Nat) :
    bankRead ops (BankI.mk 0 [X, Y]) i = some (ops.read X i) ∧
    bankRead ops (bankSet 1 (BankI.mk 0 [X, Y])) i = some (ops.read Y i) ∧
    bankWrite ops (bankSet 1 (BankI.mk 0 [X, Y])) i v =
      some (BankI.mk 1 [X, ops.write Y i v]) ∧
    bankReset ops (BankI.mk s [X, Y]) = BankI.mk 0 [ops.reset X, ops.reset Y] := by
  refine ⟨?_, ?_, ?_, ?_⟩
  · simp [bankRead]
  · simp [bankRead, bankSet]
  · simp [bankWrite, bankSet]
  · simp [bankReset]

/-- C10.  `Block for Mask` is an empty impl, so `reset` falls back to the
provided no-op: the layers (count, order, contents) are untouched and every
read observes the same state — unlike `Bus`, whose `reset` rewrites every
mapped device (here a `Ram` holding 5 is zero-filled). -/
theorem mask_reset_noop :
    (∀ (L : Type) (ls : List (Layer L)), maskReset ls = ls) ∧
    (∀ (L : Type) (ops : MuxOps L) (ls : List (Layer L)) (i : Nat),
      maskRead ops (maskReset ls) i = maskRead ops ls i) ∧
    busReset ramOps [(0, [[5]])] = [(0, [[0]])] ∧
    ([(0, [[5]])] : BusM (List Nat)) ≠ [(0, [[0]])] := by
  refine ⟨fun L ls => rfl, fun L ops ls i => rfl, by decide, by decide⟩
